import Mathlib

/-!
Shallow embedding of the `Furbreeze/dump` repository for specification
verification.

* `Dump.SesTester` embeds `src/ses_tester/index.js`: the email validator
  `isValidEmail`, the per-recipient sender `sendEmail`, the windowed batch
  dispatcher `sendBatchEmails`, and the entry point `main`.
  The external SES provider is abstracted as an oracle
  `String → Except String String` (error message or message id), matching the
  spec's abstract `sendOne` collaborator.  Asynchronous execution is embedded
  sequentially: within a window the sends are recorded in issuance order
  (the source leaves within-window settle order unspecified), and the
  externally observable behaviour (provider calls, inter-window pauses,
  window boundaries) is recorded as an explicit event trace.

* `Dump.Recon` embeds the `out.txt` validation loop of
  `src/recon/ip_recon.sh` (steps 4-6 of the script).
-/

namespace Dump

namespace SesTester

/-- `const BATCH_SIZE = 50` from the source. -/
def BATCH_SIZE : Nat := 50

/-- `const DELAY_BETWEEN_BATCHES = 1000` from the source. -/
def DELAY_BETWEEN_BATCHES : Nat := 1000

/-- The JavaScript regex character class `\s` (whitespace). -/
def isSpaceChar (c : Char) : Bool :=
  c = ' ' || c = '\t' || c = '\n' || c = '\r' || c = '\x0b' || c = '\x0c' ||
  c.val = 0xa0 || c.val = 0x1680 || (0x2000 ≤ c.val && c.val ≤ 0x200a) ||
  c.val = 0x2028 || c.val = 0x2029 || c.val = 0x202f || c.val = 0x205f ||
  c.val = 0x3000 || c.val = 0xfeff

/-- The character class `[^\s@]` used by the email regex. -/
def emailChar (c : Char) : Bool :=
  !isSpaceChar c && c != '@'

/-- `isValidEmail` from the source: test of the anchored regex
`^[^\s@]+@[^\s@]+\.[^\s@]+$`.  A string matches exactly when it decomposes as
`a ++ "@" ++ b ++ "." ++ c` with `a`, `b`, `c` non-empty strings of `[^\s@]`
characters; the definition searches over all such decompositions (the split
point `i` for the literal `@` and, within the remainder, `j` for the
literal `.`). -/
def isValidEmail (s : String) : Bool :=
  let cs := s.toList
  (List.range (cs.length + 1)).any fun i =>
    match cs.drop i with
    | '@' :: rest =>
      (List.range (rest.length + 1)).any fun j =>
        match rest.drop j with
        | '.' :: c =>
          !(cs.take i).isEmpty && !(rest.take j).isEmpty && !c.isEmpty &&
          (cs.take i).all emailChar && (rest.take j).all emailChar &&
          c.all emailChar
        | _ => false
    | _ => false

/-- Modelled from the spec's words (for comparison with `isValidEmail`, not
from the source): "local-part \"@\" domain-part, both non-empty, no
whitespace", with no further requirement on the domain part. -/
def specEmailShape (s : String) : Bool :=
  let cs := s.toList
  cs.all (fun c => !isSpaceChar c) &&
  (List.range (cs.length + 1)).any fun i =>
    match cs.drop i with
    | '@' :: rest => !(cs.take i).isEmpty && !rest.isEmpty
    | _ => false

/-- Externally observable events of a run: one `call` per provider
invocation (`sesClient.send`), a `window` marker at the start of each batch
iteration, and a `pause ms` for each `sleep(ms)`. -/
inductive Ev where
  | window (batch : List String)
  | call (email : String)
  | pause (ms : Nat)
deriving DecidableEq, Repr

/-- The `results` accumulator of `sendBatchEmails`: `successful` holds
`(email, messageId)` pairs, `failed` holds `(email, error.message)` pairs. -/
structure BatchResult where
  successful : List (String × String)
  failed : List (String × String)
deriving DecidableEq, Repr

/-- `sendEmail` from the source, with the provider abstracted as `oracle`:
an invalid address throws `Invalid email address: <addr>` before any
provider call; otherwise the provider is called and its outcome (message id
or rethrown error) is returned. -/
def sendEmail (oracle : String → Except String String) (toAddr : String) :
    Except String String :=
  if isValidEmail toAddr then oracle toAddr
  else .error ("Invalid email address: " ++ toAddr)

/-- One recipient settling inside `sendBatchEmails`: the `.then` branch
pushes onto `successful`, the `.catch` branch pushes onto `failed`. -/
def settleOne (oracle : String → Except String String) (acc : BatchResult)
    (email : String) : BatchResult :=
  match sendEmail oracle email with
  | .ok mid => { acc with successful := acc.successful ++ [(email, mid)] }
  | .error msg => { acc with failed := acc.failed ++ [(email, msg)] }

/-- Provider calls issued while a batch is in flight: `sendEmail` reaches
`sesClient.send` exactly for the addresses that pass `isValidEmail`. -/
def callEvents (batch : List String) : List Ev :=
  (batch.filter fun e => isValidEmail e).map Ev.call

/-- Fuel-indexed worker for `windows`; the fuel only forces structural
termination and is always at least `xs.length`, so the `0, _ :: _` branch is
never reached from `windows`. -/
def windowsAux (W : Nat) : Nat → List String → List (List String)
  | _, [] => []
  | 0, _ :: _ => []
  | fuel + 1, x :: xs =>
    (x :: xs).take W :: windowsAux W fuel ((x :: xs).drop W)

/-- The successive slices `emailList.slice(i, i + W)` taken by the loop of
`sendBatchEmails` for `i = 0, W, 2W, ...` (in the source `W` is the positive
constant `BATCH_SIZE = 50`; a zero window size would not terminate there). -/
def windows (W : Nat) (xs : List String) : List (List String) :=
  windowsAux W xs.length xs

/-- The loop body of `sendBatchEmails`, iterated over the precomputed
window slices: each iteration fans out the window's sends, awaits them all
(`Promise.all`), and then pauses for `D` exactly when `i + W < N`, i.e.
exactly when the window just settled is not the last one. -/
def dispatchWindows (oracle : String → Except String String) (D : Nat)
    (acc : BatchResult) : List (List String) → BatchResult × List Ev
  | [] => (acc, [])
  | b :: rest =>
    let acc2 := b.foldl (settleOne oracle) acc
    let evs := Ev.window b :: callEvents b
    match rest with
    | [] => (acc2, evs)
    | r :: rs =>
      let out := dispatchWindows oracle D acc2 (r :: rs)
      (out.1, evs ++ Ev.pause D :: out.2)

/-- `sendBatchEmails` from the source, parametrised by the window size `W`
(`BATCH_SIZE` in the source) and the inter-window delay `D`
(`DELAY_BETWEEN_BATCHES`): returns the accumulated results together with the
event trace of the run. -/
def sendBatchEmails (oracle : String → Except String String) (W D : Nat)
    (emailList : List String) : BatchResult × List Ev :=
  dispatchWindows oracle D ⟨[], []⟩ (windows W emailList)

/-- Outcome of one process run: the exit status, the batch result reported
by `sendBatchEmails` (`none` when the run aborts before dispatch), and the
event trace (empty when no dispatch happened). -/
structure MainOutcome where
  exitCode : Nat
  result : Option BatchResult
  events : List Ev
deriving DecidableEq, Repr

/-- `main` from the source, with `args` standing for
`process.argv.slice(2)`: `process.exit(1)` on an empty list, `process.exit(1)`
when any address fails `isValidEmail` (both before `sendBatchEmails` is
called), otherwise the batch runs and the process ends with status 0 —
the embedded dispatcher is total, so the surrounding `try/catch`
(`Fatal error` path) is never taken. -/
def main (oracle : String → Except String String) (args : List String) :
    MainOutcome :=
  if args.length = 0 then ⟨1, none, []⟩
  else if 0 < (args.filter fun e => !isValidEmail e).length then ⟨1, none, []⟩
  else
    let r := sendBatchEmails oracle BATCH_SIZE DELAY_BETWEEN_BATCHES args
    ⟨0, some r.1, r.2⟩

/-- The success records a run produces, recipient by recipient. -/
def succOf (oracle : String → Except String String) (xs : List String) :
    List (String × String) :=
  xs.filterMap fun e =>
    match sendEmail oracle e with
    | .ok mid => some (e, mid)
    | .error _ => none

/-- The failure records a run produces, recipient by recipient. -/
def failOf (oracle : String → Except String String) (xs : List String) :
    List (String × String) :=
  xs.filterMap fun e =>
    match sendEmail oracle e with
    | .ok _ => none
    | .error msg => some (e, msg)

/-- A provider that accepts every send (used to instantiate theorems). -/
def oracleOk : String → Except String String := fun _ => .ok "mid-0"

/-- A provider that rejects exactly the address `bad` (used to instantiate
theorems). -/
def oracleFailOn (bad : String) : String → Except String String :=
  fun e => if e = bad then .error "provider rejected" else .ok "mid-1"

/-- Recognises a `pause` event. -/
def isPauseEv : Ev → Bool
  | .pause _ => true
  | _ => false

/-- The window slice carried by a `window` event, if any. -/
def windowOf : Ev → Option (List String)
  | .window b => some b
  | _ => none

/-- The window slices recorded in a trace, in order. -/
def traceWindows (tr : List Ev) : List (List String) :=
  tr.filterMap windowOf

end SesTester

namespace Recon

/-- The bash character class `[a-zA-Z0-9]`. -/
def isAlnumCh (c : Char) : Bool :=
  ('a' ≤ c && c ≤ 'z') || ('A' ≤ c && c ≤ 'Z') || ('0' ≤ c && c ≤ '9')

/-- The bash character class `[a-zA-Z0-9\-]`. -/
def labelChar (c : Char) : Bool :=
  isAlnumCh c || c = '-'

/-- One label of the hostname regex:
`[a-zA-Z0-9]|[a-zA-Z0-9][a-zA-Z0-9\-]{0,61}[a-zA-Z0-9]` — between 1 and 63
characters, every character alphanumeric or hyphen, first and last
alphanumeric. -/
def validLabel (cs : List Char) : Bool :=
  !cs.isEmpty && cs.length ≤ 63 &&
  isAlnumCh (cs.headD ' ') && isAlnumCh (cs.getLastD ' ') &&
  cs.all labelChar

/-- The full hostname regex `^L(\.L)*$` with `L` as in `validLabel`:
since labels contain no dot, a string matches exactly when every
dot-separated part is a valid label (the empty string yields the single
empty part, which is not a valid label). -/
def validDomain (cs : List Char) : Bool :=
  (cs.splitOn '.').all validLabel

/-- The parameter expansion `"${host%.}"`: remove one trailing dot when
present. -/
def stripTrailingDot (cs : List Char) : List Char :=
  if cs.getLastD ' ' = '.' then cs.dropLast else cs

/-- The `out.txt` loop of `ip_recon.sh`: for each line of `tmp.txt`, skip
empty lines, strip one trailing dot, and append the result to `out.txt`
only when it passes `validDomain`. -/
def outLines (lines : List (List Char)) : List (List Char) :=
  lines.filterMap fun h =>
    if h.isEmpty then none
    else
      let hs := stripTrailingDot h
      if validDomain hs then some hs else none

end Recon

namespace SesTester

lemma windowsAux_nil (W : Nat) : ∀ fuel, windowsAux W fuel [] = []
  | 0 => rfl
  | _ + 1 => rfl

lemma windowsAux_congr {W : Nat} (hW : 0 < W) :
    ∀ f₁ f₂ (xs : List String), xs.length ≤ f₁ → xs.length ≤ f₂ →
      windowsAux W f₁ xs = windowsAux W f₂ xs := by
  intro f₁
  induction f₁ with
  | zero =>
    intro f₂ xs h₁ _
    rw [List.eq_nil_of_length_eq_zero (Nat.le_zero.mp h₁)]
    rw [windowsAux_nil, windowsAux_nil]
  | succ f ih =>
    intro f₂ xs h₁ h₂
    cases xs with
    | nil => rw [windowsAux_nil, windowsAux_nil]
    | cons x l =>
      cases f₂ with
      | zero => simp at h₂
      | succ g =>
        show (x :: l).take W :: windowsAux W f ((x :: l).drop W) =
          (x :: l).take W :: windowsAux W g ((x :: l).drop W)
        have hd : ((x :: l).drop W).length ≤ l.length := by
          rw [List.length_drop]; simp only [List.length_cons]; omega
        have h₁' : l.length ≤ f := by simpa using h₁
        have h₂' : l.length ≤ g := by simpa using h₂
        rw [ih g _ (le_trans hd h₁') (le_trans hd h₂')]

lemma windows_nil (W : Nat) : windows W [] = [] := rfl

lemma windows_cons {W : Nat} (hW : 0 < W) {xs : List String} (h : xs ≠ []) :
    windows W xs = xs.take W :: windows W (xs.drop W) := by
  cases xs with
  | nil => exact absurd rfl h
  | cons x l =>
    show windowsAux W (l.length + 1) (x :: l) = _
    show (x :: l).take W :: windowsAux W l.length ((x :: l).drop W) = _
    rw [windowsAux_congr hW l.length ((x :: l).drop W).length _ ?_ le_rfl]
    · rfl
    · rw [List.length_drop]; simp only [List.length_cons]; omega

lemma windows_ind {W : Nat} (hW : 0 < W) (motive : List String → Prop)
    (hnil : motive []) (hcons : ∀ xs, xs ≠ [] → motive (xs.drop W) → motive xs) :
    ∀ xs, motive xs := by
  have key : ∀ n (xs : List String), xs.length ≤ n → motive xs := by
    intro n
    induction n with
    | zero =>
      intro xs h
      rw [List.eq_nil_of_length_eq_zero (Nat.le_zero.mp h)]
      exact hnil
    | succ n ih =>
      intro xs h
      cases xs with
      | nil => exact hnil
      | cons x l =>
        refine hcons _ (by simp) (ih _ ?_)
        rw [List.length_drop]; simp only [List.length_cons] at h ⊢; omega
  exact fun xs => key xs.length xs le_rfl

lemma windows_ne_nil {W : Nat} (hW : 0 < W) {xs : List String} (h : xs ≠ []) :
    windows W xs ≠ [] := by
  rw [windows_cons hW h]; exact List.cons_ne_nil _ _

lemma windows_flatten {W : Nat} (hW : 0 < W) :
    ∀ xs, (windows W xs).flatten = xs :=
  windows_ind hW _ (by rw [windows_nil]; rfl)
    (fun xs hne ih => by
      rw [windows_cons hW hne, List.flatten_cons, ih, List.take_append_drop])

lemma windows_length {W : Nat} (hW : 0 < W) :
    ∀ xs : List String, (windows W xs).length = (xs.length + W - 1) / W := by
  refine windows_ind hW _ ?_ ?_
  · rw [windows_nil]
    simp only [List.length_nil, Nat.zero_add]
    rw [Nat.div_eq_of_lt (by omega)]
  · intro xs hne ih
    rw [windows_cons hW hne, List.length_cons, ih, List.length_drop]
    have hN : 0 < xs.length := List.length_pos.mpr hne
    rcases le_or_lt xs.length W with h | h
    · have h1 : xs.length - W = 0 := by omega
      rw [h1]
      have h2 : (0 + W - 1) / W = 0 := Nat.div_eq_of_lt (by omega)
      rw [h2]
      have h3 : xs.length + W - 1 = (xs.length - 1) + W := by omega
      rw [h3, Nat.add_div_right _ hW, Nat.div_eq_of_lt (by omega)]
    · have h1 : xs.length - W + W - 1 = (xs.length - W - 1) + W := by omega
      have h2 : xs.length + W - 1 = (xs.length - 1) + W := by omega
      rw [h1, h2, Nat.add_div_right _ hW, Nat.add_div_right _ hW]
      have h3 : xs.length - 1 = (xs.length - W - 1) + W := by omega
      rw [h3, Nat.add_div_right _ hW]

lemma windows_sizes {W : Nat} (hW : 0 < W) :
    ∀ xs : List String,
      (∀ w ∈ (windows W xs).dropLast, w.length = W) ∧
      (∀ h : windows W xs ≠ [],
        ((windows W xs).getLast h).length =
          if xs.length % W = 0 then W else xs.length % W) := by
  refine windows_ind hW _ ?_ ?_
  · rw [windows_nil]
    exact ⟨by intro w hw; simp at hw, by intro h; exact absurd rfl h⟩
  · intro xs hne ih
    have hN : 0 < xs.length := List.length_pos.mpr hne
    by_cases hdrop : xs.drop W = []
    · have hlen : xs.length ≤ W := by
        have := congrArg List.length hdrop
        rw [List.length_drop] at this
        simp only [List.length_nil] at this
        omega
      have hwin : windows W xs = [xs.take W] := by
        rw [windows_cons hW hne, hdrop, windows_nil]
      constructor
      · intro w hw
        rw [hwin] at hw
        simp at hw
      · intro h
        have e1 : (windows W xs).getLast? = some (xs.take W) := by
          rw [hwin, List.getLast?_singleton]
        rw [List.getLast?_eq_getLast _ h] at e1
        rw [Option.some_inj.mp e1, List.take_of_length_le hlen]
        rcases Nat.lt_or_eq_of_le hlen with h' | h'
        · rw [Nat.mod_eq_of_lt h', if_neg (by omega)]
        · rw [h', Nat.mod_self, if_pos rfl]
    · have htail := windows_ne_nil hW hdrop
      have hWle : W ≤ xs.length := by
        by_contra hcon
        exact hdrop (List.drop_eq_nil_of_le (by omega))
      have hmod : (xs.drop W).length % W = xs.length % W := by
        rw [List.length_drop]
        conv_rhs => rw [show xs.length = (xs.length - W) + W by omega]
        rw [Nat.add_mod_right]
      constructor
      · intro w hw
        rw [windows_cons hW hne, List.dropLast_cons_of_ne_nil htail] at hw
        rcases List.mem_cons.mp hw with h' | h'
        · rw [h', List.length_take]; omega
        · exact ih.1 w h'
      · intro h
        have e1 : (windows W xs).getLast? = (windows W (xs.drop W)).getLast? := by
          rw [windows_cons hW hne]
          cases hw : windows W (xs.drop W) with
          | nil => exact absurd hw htail
          | cons b m => rw [List.getLast?_cons_cons]
        rw [List.getLast?_eq_getLast _ h, List.getLast?_eq_getLast _ htail] at e1
        rw [Option.some_inj.mp e1, ih.2 htail, hmod]

lemma intercalate_cons_ne {α : Type} (sep b : List α) {bs : List (List α)}
    (h : bs ≠ []) :
    List.intercalate sep (b :: bs) = b ++ sep ++ List.intercalate sep bs := by
  cases bs with
  | nil => exact absurd rfl h
  | cons c cs =>
    simp [List.intercalate, List.intersperse_cons_cons, List.flatten_cons,
      List.append_assoc]

lemma dispatchWindows_nil (oracle : String → Except String String) (D : Nat)
    (acc : BatchResult) : dispatchWindows oracle D acc [] = (acc, []) := rfl

lemma dispatchWindows_single (oracle : String → Except String String) (D : Nat)
    (acc : BatchResult) (b : List String) :
    dispatchWindows oracle D acc [b] =
      (b.foldl (settleOne oracle) acc, Ev.window b :: callEvents b) := rfl

lemma dispatchWindows_cons₂ (oracle : String → Except String String) (D : Nat)
    (acc : BatchResult) (b r : List String) (rs : List (List String)) :
    dispatchWindows oracle D acc (b :: r :: rs) =
      ((dispatchWindows oracle D (b.foldl (settleOne oracle) acc) (r :: rs)).1,
        (Ev.window b :: callEvents b) ++ Ev.pause D ::
          (dispatchWindows oracle D (b.foldl (settleOne oracle) acc) (r :: rs)).2) :=
  rfl

lemma dispatchWindows_fst (oracle : String → Except String String) (D : Nat) :
    ∀ (ws : List (List String)) (acc : BatchResult),
      (dispatchWindows oracle D acc ws).1 =
        ws.foldl (fun a b => b.foldl (settleOne oracle) a) acc := by
  intro ws
  induction ws with
  | nil => intro acc; rfl
  | cons b rest ih =>
    intro acc
    cases rest with
    | nil => rfl
    | cons r rs => rw [dispatchWindows_cons₂, ih]; rfl

lemma dispatchWindows_snd (oracle : String → Except String String) (D : Nat) :
    ∀ (ws : List (List String)) (acc : BatchResult),
      (dispatchWindows oracle D acc ws).2 =
        List.intercalate [Ev.pause D]
          (ws.map fun b => Ev.window b :: callEvents b) := by
  intro ws
  induction ws with
  | nil => intro acc; rfl
  | cons b rest ih =>
    intro acc
    cases rest with
    | nil =>
      rw [dispatchWindows_single]
      simp [List.intercalate]
    | cons r rs =>
      rw [dispatchWindows_cons₂]
      show (Ev.window b :: callEvents b) ++ Ev.pause D :: _ = _
      rw [List.map_cons, intercalate_cons_ne _ _ (by simp), ih]
      simp [List.append_assoc]

lemma foldl_settleOne (oracle : String → Except String String) :
    ∀ (xs : List String) (acc : BatchResult),
      xs.foldl (settleOne oracle) acc =
        ⟨acc.successful ++ succOf oracle xs, acc.failed ++ failOf oracle xs⟩ := by
  intro xs
  induction xs with
  | nil => intro acc; cases acc; simp [succOf, failOf]
  | cons e l ih =>
    intro acc
    rw [List.foldl_cons, ih]
    cases hse : sendEmail oracle e with
    | ok mid =>
      simp [settleOne, hse, succOf, failOf, List.filterMap_cons,
        List.append_assoc]
    | error msg =>
      simp [settleOne, hse, succOf, failOf, List.filterMap_cons,
        List.append_assoc]

lemma sendBatchEmails_fst {W : Nat} (hW : 0 < W)
    (oracle : String → Except String String) (D : Nat) (xs : List String) :
    (sendBatchEmails oracle W D xs).1 = ⟨succOf oracle xs, failOf oracle xs⟩ := by
  rw [sendBatchEmails, dispatchWindows_fst, ← List.foldl_flatten,
    windows_flatten hW, foldl_settleOne]
  simp

lemma length_succOf_add_failOf (oracle : String → Except String String) :
    ∀ xs : List String,
      (succOf oracle xs).length + (failOf oracle xs).length = xs.length := by
  intro xs
  induction xs with
  | nil => rfl
  | cons e l ih =>
    cases hse : sendEmail oracle e with
    | ok mid =>
      simp only [succOf, failOf, List.filterMap_cons, hse] at ih ⊢
      simp only [List.length_cons]
      omega
    | error msg =>
      simp only [succOf, failOf, List.filterMap_cons, hse] at ih ⊢
      simp only [List.length_cons]
      omega

lemma perm_succOf_failOf (oracle : String → Except String String) :
    ∀ xs : List String,
      ((succOf oracle xs).map Prod.fst ++ (failOf oracle xs).map Prod.fst).Perm
        xs := by
  intro xs
  induction xs with
  | nil => simp [succOf, failOf]
  | cons e l ih =>
    cases hse : sendEmail oracle e with
    | ok mid =>
      simp only [succOf, failOf, List.filterMap_cons, hse, List.map_cons,
        List.cons_append]
      exact ih.cons e
    | error msg =>
      simp only [succOf, failOf, List.filterMap_cons, hse, List.map_cons]
      exact List.perm_middle.trans (ih.cons e)

lemma mem_succOf {oracle : String → Except String String} {xs : List String}
    {e m : String} :
    (e, m) ∈ succOf oracle xs ↔ e ∈ xs ∧ sendEmail oracle e = .ok m := by
  simp only [succOf, List.mem_filterMap]
  constructor
  · rintro ⟨a, ha, hfa⟩
    cases hsa : sendEmail oracle a with
    | ok mid =>
      rw [hsa] at hfa
      simp only [Option.some_inj, Prod.mk.injEq] at hfa
      obtain ⟨rfl, rfl⟩ := hfa
      exact ⟨ha, hsa⟩
    | error msg => rw [hsa] at hfa; simp at hfa
  · rintro ⟨hmem, hok⟩
    exact ⟨e, hmem, by rw [hok]⟩

lemma mem_failOf {oracle : String → Except String String} {xs : List String}
    {e m : String} :
    (e, m) ∈ failOf oracle xs ↔ e ∈ xs ∧ sendEmail oracle e = .error m := by
  simp only [failOf, List.mem_filterMap]
  constructor
  · rintro ⟨a, ha, hfa⟩
    cases hsa : sendEmail oracle a with
    | ok mid => rw [hsa] at hfa; simp at hfa
    | error msg =>
      rw [hsa] at hfa
      simp only [Option.some_inj, Prod.mk.injEq] at hfa
      obtain ⟨rfl, rfl⟩ := hfa
      exact ⟨ha, hsa⟩
  · rintro ⟨hmem, herr⟩
    exact ⟨e, hmem, by rw [herr]⟩

lemma mem_fst_succOf {oracle : String → Except String String} {xs : List String}
    {e : String} :
    e ∈ (succOf oracle xs).map Prod.fst ↔
      e ∈ xs ∧ ∃ m, sendEmail oracle e = .ok m := by
  simp only [List.mem_map]
  constructor
  · rintro ⟨⟨a, m⟩, hp, rfl⟩
    obtain ⟨ha, hok⟩ := mem_succOf.mp hp
    exact ⟨ha, m, hok⟩
  · rintro ⟨hmem, m, hok⟩
    exact ⟨(e, m), mem_succOf.mpr ⟨hmem, hok⟩, rfl⟩

lemma mem_fst_failOf {oracle : String → Except String String} {xs : List String}
    {e : String} :
    e ∈ (failOf oracle xs).map Prod.fst ↔
      e ∈ xs ∧ ∃ m, sendEmail oracle e = .error m := by
  simp only [List.mem_map]
  constructor
  · rintro ⟨⟨a, m⟩, hp, rfl⟩
    obtain ⟨ha, herr⟩ := mem_failOf.mp hp
    exact ⟨ha, m, herr⟩
  · rintro ⟨hmem, m, herr⟩
    exact ⟨(e, m), mem_failOf.mpr ⟨hmem, herr⟩, rfl⟩

lemma mem_callEvents {b : List String} {e : String} :
    Ev.call e ∈ callEvents b ↔ e ∈ b ∧ isValidEmail e = true := by
  simp only [callEvents, List.mem_map, List.mem_filter]
  constructor
  · rintro ⟨a, ⟨ha, hva⟩, heq⟩
    cases heq
    exact ⟨ha, hva⟩
  · rintro ⟨hmem, hv⟩
    exact ⟨e, ⟨hmem, hv⟩, rfl⟩

lemma no_pause_block {b : List String} :
    ∀ ev ∈ (Ev.window b :: callEvents b), isPauseEv ev = false := by
  intro ev hev
  rcases List.mem_cons.mp hev with rfl | hev'
  · rfl
  · obtain ⟨a, _, rfl⟩ := List.mem_map.mp hev'
    rfl

lemma pause_mem_dispatch (oracle : String → Except String String) (D : Nat) :
    ∀ (ws : List (List String)) (acc : BatchResult) (ev : Ev),
      ev ∈ (dispatchWindows oracle D acc ws).2 → isPauseEv ev = true →
        ev = Ev.pause D := by
  intro ws
  induction ws with
  | nil => intro acc ev hev _; rw [dispatchWindows_nil] at hev; simp at hev
  | cons b rest ih =>
    intro acc ev hev hp
    cases rest with
    | nil =>
      rw [dispatchWindows_single] at hev
      rw [no_pause_block ev hev] at hp
      cases hp
    | cons r rs =>
      rw [dispatchWindows_cons₂] at hev
      rcases List.mem_append.mp hev with h | h
      · rw [no_pause_block ev h] at hp; cases hp
      · rcases List.mem_cons.mp h with rfl | h'
        · rfl
        · exact ih _ ev h' hp

lemma countP_pause_callEvents {b : List String} :
    (callEvents b).countP isPauseEv = 0 := by
  rw [List.countP_eq_zero]
  intro ev hev
  obtain ⟨a, _, rfl⟩ := List.mem_map.mp hev
  simp [isPauseEv]

lemma countP_pause_dispatch (oracle : String → Except String String) (D : Nat) :
    ∀ (ws : List (List String)) (acc : BatchResult),
      (dispatchWindows oracle D acc ws).2.countP isPauseEv = ws.length - 1 := by
  intro ws
  induction ws with
  | nil => intro acc; rfl
  | cons b rest ih =>
    intro acc
    cases rest with
    | nil =>
      rw [dispatchWindows_single, List.countP_cons, countP_pause_callEvents]
      rfl
    | cons r rs =>
      rw [dispatchWindows_cons₂, List.countP_append, List.countP_cons,
        List.countP_cons, countP_pause_callEvents, ih]
      have h1 : isPauseEv (Ev.window b) = false := rfl
      have h2 : isPauseEv (Ev.pause D) = true := rfl
      rw [h1, h2, if_neg (by decide), if_pos rfl]
      simp only [List.length_cons]
      omega

lemma getLast_trace_dispatch (oracle : String → Except String String) (D : Nat) :
    ∀ (ws : List (List String)) (acc : BatchResult), ws ≠ [] →
      ∃ ev, (dispatchWindows oracle D acc ws).2.getLast? = some ev ∧
        isPauseEv ev = false := by
  intro ws
  induction ws with
  | nil => intro acc h; exact absurd rfl h
  | cons b rest ih =>
    intro acc _
    cases rest with
    | nil =>
      rw [dispatchWindows_single]
      have hne : (Ev.window b :: callEvents b) ≠ [] := List.cons_ne_nil _ _
      refine ⟨(Ev.window b :: callEvents b).getLast hne,
        List.getLast?_eq_getLast _ hne, ?_⟩
      exact no_pause_block _ (List.getLast_mem hne)
    | cons r rs =>
      rw [dispatchWindows_cons₂]
      obtain ⟨ev, hlast, hev⟩ :=
        ih (b.foldl (settleOne oracle) acc) (List.cons_ne_nil r rs)
      refine ⟨ev, ?_, hev⟩
      rw [List.getLast?_append]
      cases htr' :
          (dispatchWindows oracle D (b.foldl (settleOne oracle) acc) (r :: rs)).2 with
      | nil => rw [htr'] at hlast; cases hlast
      | cons ev0 tl =>
        rw [htr'] at hlast
        rw [List.getLast?_cons_cons, hlast, Option.or_some]

lemma call_mem_dispatch (oracle : String → Except String String) (D : Nat)
    (e : String) :
    ∀ (ws : List (List String)) (acc : BatchResult),
      Ev.call e ∈ (dispatchWindows oracle D acc ws).2 ↔
        ∃ b ∈ ws, e ∈ b ∧ isValidEmail e = true := by
  intro ws
  induction ws with
  | nil => intro acc; rw [dispatchWindows_nil]; simp
  | cons b rest ih =>
    intro acc
    cases rest with
    | nil =>
      rw [dispatchWindows_single]
      simp only [List.mem_cons, List.mem_singleton]
      constructor
      · rintro (h | h)
        · cases h
        · obtain ⟨hm, hv⟩ := mem_callEvents.mp h
          exact ⟨b, Or.inl rfl, hm, hv⟩
      · rintro ⟨b', (rfl | h), hm, hv⟩
        · exact Or.inr (mem_callEvents.mpr ⟨hm, hv⟩)
        · cases h
    | cons r rs =>
      rw [dispatchWindows_cons₂]
      simp only [List.mem_append, List.mem_cons]
      rw [ih]
      constructor
      · rintro ((h | h) | (h | h))
        · cases h
        · obtain ⟨hm, hv⟩ := mem_callEvents.mp h
          exact ⟨b, Or.inl rfl, hm, hv⟩
        · cases h
        · obtain ⟨b', hb', hm, hv⟩ := h
          exact ⟨b', Or.inr (List.mem_cons.mp hb'), hm, hv⟩
      · rintro ⟨b', hb', hm, hv⟩
        rcases hb' with rfl | hb''
        · exact Or.inl (Or.inr (mem_callEvents.mpr ⟨hm, hv⟩))
        · exact Or.inr (Or.inr ⟨b', List.mem_cons.mpr hb'', hm, hv⟩)

lemma call_mem_sendBatch {W : Nat} (hW : 0 < W)
    (oracle : String → Except String String) (D : Nat) (xs : List String)
    (e : String) :
    Ev.call e ∈ (sendBatchEmails oracle W D xs).2 ↔
      e ∈ xs ∧ isValidEmail e = true := by
  rw [sendBatchEmails, call_mem_dispatch]
  constructor
  · rintro ⟨b, hb, hm, hv⟩
    refine ⟨?_, hv⟩
    rw [← windows_flatten hW xs]
    exact List.mem_flatten.mpr ⟨b, hb, hm⟩
  · rintro ⟨hmem, hv⟩
    rw [← windows_flatten hW xs] at hmem
    obtain ⟨b, hb, hm⟩ := List.mem_flatten.mp hmem
    exact ⟨b, hb, hm, hv⟩

lemma windowOf_window (b : List String) : windowOf (Ev.window b) = some b := rfl

lemma windowOf_call (e : String) : windowOf (Ev.call e) = none := rfl

lemma windowOf_pause (D : Nat) : windowOf (Ev.pause D) = none := rfl

lemma traceWindows_callEvents {b : List String} :
    traceWindows (callEvents b) = [] := by
  rw [traceWindows, callEvents, List.filterMap_map, List.filterMap_eq_nil_iff]
  intro a _
  rfl

lemma traceWindows_dispatch (oracle : String → Except String String) (D : Nat) :
    ∀ (ws : List (List String)) (acc : BatchResult),
      traceWindows (dispatchWindows oracle D acc ws).2 = ws := by
  intro ws
  induction ws with
  | nil => intro acc; rfl
  | cons b rest ih =>
    intro acc
    cases rest with
    | nil =>
      rw [dispatchWindows_single, traceWindows, List.filterMap_cons,
        windowOf_window, ← traceWindows, traceWindows_callEvents]
    | cons r rs =>
      rw [dispatchWindows_cons₂, traceWindows, List.filterMap_append,
        List.filterMap_cons, List.filterMap_cons, windowOf_window,
        windowOf_pause, ← traceWindows, ← traceWindows,
        traceWindows_callEvents, ih]
      rfl

lemma isValidEmail_iff {s : String} :
    isValidEmail s = true ↔
      ∃ a b c : List Char, a ≠ [] ∧ b ≠ [] ∧ c ≠ [] ∧
        a.all emailChar = true ∧ b.all emailChar = true ∧
        c.all emailChar = true ∧
        s.toList = a ++ '@' :: (b ++ '.' :: c) := by
  constructor
  · intro h
    simp only [isValidEmail, List.any_eq_true, List.mem_range] at h
    obtain ⟨i, hi, hmatch⟩ := h
    split at hmatch
    case _ rest heq =>
      simp only [List.any_eq_true, List.mem_range] at hmatch
      obtain ⟨j, hj, hmatch2⟩ := hmatch
      split at hmatch2
      case _ c heq2 =>
        simp only [Bool.and_eq_true, Bool.not_eq_true',
          List.isEmpty_eq_false] at hmatch2
        obtain ⟨⟨⟨⟨⟨ha, hb⟩, hc⟩, hac⟩, hbc⟩, hcc⟩ := hmatch2
        refine ⟨s.toList.take i, rest.take j, c, ha, hb, hc, hac, hbc, hcc, ?_⟩
        have e1 : s.toList = s.toList.take i ++ '@' :: rest := by
          conv_lhs => rw [← List.take_append_drop i s.toList]
          rw [heq]
        have e2 : rest = rest.take j ++ '.' :: c := by
          conv_lhs => rw [← List.take_append_drop j rest]
          rw [heq2]
        conv_lhs => rw [e1, e2]
      case _ => cases hmatch2
    case _ => cases hmatch
  · rintro ⟨a, b, c, ha, hb, hc, hac, hbc, hcc, hs⟩
    simp only [isValidEmail, List.any_eq_true, List.mem_range]
    refine ⟨a.length, ?_, ?_⟩
    · rw [hs, List.length_append]; omega
    · have hdrop : s.toList.drop a.length = '@' :: (b ++ '.' :: c) := by
        rw [hs]; exact List.drop_left a _
      rw [hdrop]
      split
      case _ rest heq =>
        obtain ⟨rfl⟩ : rest = b ++ '.' :: c := by
          injection heq with h1 h2; exact h2.symm
        simp only [List.any_eq_true, List.mem_range]
        refine ⟨b.length, by rw [List.length_append]; omega, ?_⟩
        have hdrop2 : (b ++ '.' :: c).drop b.length = '.' :: c :=
          List.drop_left b _
        rw [hdrop2]
        split
        case _ c' heq2 =>
          obtain ⟨rfl⟩ : c' = c := by
            injection heq2 with h1 h2; exact h2.symm
          have ht1 : s.toList.take a.length = a := by
            rw [hs]; exact List.take_left a _
          have ht2 : (b ++ '.' :: c).take b.length = b := List.take_left b _
          rw [ht1, ht2]
          simp [List.isEmpty_eq_false, ha, hb, hc, hac, hbc, hcc]
        case _ hne => exact absurd rfl (hne c)
      case _ hne => exact absurd rfl (hne (b ++ '.' :: c))

lemma sendBatch_successful {W : Nat} (hW : 0 < W)
    (oracle : String → Except String String) (D : Nat) (xs : List String) :
    (sendBatchEmails oracle W D xs).1.successful = succOf oracle xs := by
  rw [sendBatchEmails_fst hW]

lemma sendBatch_failed {W : Nat} (hW : 0 < W)
    (oracle : String → Except String String) (D : Nat) (xs : List String) :
    (sendBatchEmails oracle W D xs).1.failed = failOf oracle xs := by
  rw [sendBatchEmails_fst hW]

lemma ceil_div_of_dvd {W N : Nat} (hW : 0 < W) (h : N % W = 0) :
    (N + W - 1) / W = N / W := by
  obtain ⟨k, rfl⟩ := Nat.dvd_of_mod_eq_zero h
  cases k with
  | zero =>
    rw [Nat.mul_zero, Nat.zero_add, Nat.zero_div, Nat.div_eq_of_lt (by omega)]
  | succ k =>
    have h1 : W * (k + 1) + W - 1 = (W - 1) + W * (k + 1) := by omega
    rw [h1, Nat.add_mul_div_left _ _ hW, Nat.div_eq_of_lt (by omega),
      Nat.mul_div_cancel_left _ hW, Nat.zero_add]

lemma send_ok_of_valid {oracle : String → Except String String} {e m : String}
    (hv : isValidEmail e = true) (hok : oracle e = .ok m) :
    sendEmail oracle e = .ok m := by
  rw [sendEmail, if_pos hv, hok]

lemma send_error_of_valid {oracle : String → Except String String}
    {e m : String} (hv : isValidEmail e = true) (herr : oracle e = .error m) :
    sendEmail oracle e = .error m := by
  rw [sendEmail, if_pos hv, herr]

lemma send_error_of_invalid {oracle : String → Except String String}
    {e : String} (hbad : isValidEmail e = false) :
    sendEmail oracle e = .error ("Invalid email address: " ++ e) := by
  rw [sendEmail, if_neg (by simp [hbad])]

lemma record_exists (oracle : String → Except String String) {W : Nat}
    (hW : 0 < W) (D : Nat) (xs : List String) :
    ∀ e ∈ xs,
      e ∈ (sendBatchEmails oracle W D xs).1.successful.map Prod.fst ∨
      e ∈ (sendBatchEmails oracle W D xs).1.failed.map Prod.fst := by
  intro e he
  rw [sendBatch_successful hW, sendBatch_failed hW]
  cases hse : sendEmail oracle e with
  | ok m => exact Or.inl (mem_fst_succOf.mpr ⟨he, m, hse⟩)
  | error m => exact Or.inr (mem_fst_failOf.mpr ⟨he, m, hse⟩)

end SesTester

namespace Recon

lemma validDomain_nil : validDomain [] = false := rfl

lemma mem_outLines {lines : List (List Char)} {out : List Char} :
    out ∈ outLines lines ↔
      ∃ src ∈ lines, src ≠ [] ∧ out = stripTrailingDot src ∧
        validDomain out = true := by
  simp only [outLines, List.mem_filterMap]
  constructor
  · rintro ⟨src, hsrc, hf⟩
    by_cases he : src.isEmpty = true
    · rw [if_pos he] at hf; cases hf
    · rw [if_neg he] at hf
      by_cases hv : validDomain (stripTrailingDot src) = true
      · rw [if_pos hv] at hf
        cases hf
        exact ⟨src, hsrc, fun hnil => he (List.isEmpty_eq_true.mpr hnil),
          rfl, hv⟩
      · rw [if_neg hv] at hf; cases hf
  · rintro ⟨src, hsrc, hne, rfl, hv⟩
    refine ⟨src, hsrc, ?_⟩
    rw [if_neg (fun h => hne (List.isEmpty_eq_true.mp h)), if_pos hv]

end Recon

namespace SesTester

/-- C1: when the input list contains a malformed address, the run aborts with
exit status 1 before dispatch: no provider call is issued and no success or
failure record is produced for any recipient. -/
theorem c1_malformed_input_aborts_run
    (oracle : String → Except String String) (args : List String) (e : String)
    (he : e ∈ args) (hbad : isValidEmail e = false) :
    main oracle args = ⟨1, none, []⟩ := by
  have h0 : ¬args.length = 0 :=
    fun h => List.ne_nil_of_mem he (List.length_eq_zero.mp h)
  have h1 : 0 < (args.filter fun x => !isValidEmail x).length := by
    refine List.length_pos.mpr (List.ne_nil_of_mem (a := e) ?_)
    exact List.mem_filter.mpr ⟨he, by simp [hbad]⟩
  rw [main, if_neg h0, if_pos h1]

/-- Witness for C1 at a concrete malformed input. -/
theorem c1_witness :
    "bad" ∈ ["a@b.c", "bad"] ∧ isValidEmail "bad" = false ∧
      main oracleOk ["a@b.c", "bad"] = ⟨1, none, []⟩ :=
  ⟨by decide, by decide,
    c1_malformed_input_aborts_run oracleOk ["a@b.c", "bad"] "bad"
      (by decide) (by decide)⟩

/-- C2: the dispatcher processes exactly the consecutive windows of size `W`:
the trace records the slices `windows W xs`, there are exactly
`ceil(N / W)` of them, their concatenation is the input, every window except
the last has size `W`, and the last has size `N mod W` (or `W` when `W`
divides `N`). -/
theorem c2_window_partition (oracle : String → Except String String)
    (W D : Nat) (xs : List String) (hW : 0 < W) :
    traceWindows (sendBatchEmails oracle W D xs).2 = windows W xs ∧
    (windows W xs).length = (xs.length + W - 1) / W ∧
    (windows W xs).flatten = xs ∧
    (∀ w ∈ (windows W xs).dropLast, w.length = W) ∧
    (∀ h : windows W xs ≠ [],
      ((windows W xs).getLast h).length =
        if xs.length % W = 0 then W else xs.length % W) :=
  ⟨traceWindows_dispatch oracle D (windows W xs) ⟨[], []⟩,
    windows_length hW xs, windows_flatten hW xs,
    (windows_sizes hW xs).1, (windows_sizes hW xs).2⟩

/-- Witness for C2 with three recipients and window size two. -/
theorem c2_witness :
    0 < 2 ∧
      (traceWindows (sendBatchEmails oracleOk 2 7 ["a@b.c", "d@e.f", "g@h.i"]).2 =
          windows 2 ["a@b.c", "d@e.f", "g@h.i"] ∧
        (windows 2 ["a@b.c", "d@e.f", "g@h.i"]).length =
          (["a@b.c", "d@e.f", "g@h.i"].length + 2 - 1) / 2 ∧
        (windows 2 ["a@b.c", "d@e.f", "g@h.i"]).flatten =
          ["a@b.c", "d@e.f", "g@h.i"] ∧
        (∀ w ∈ (windows 2 ["a@b.c", "d@e.f", "g@h.i"]).dropLast,
          w.length = 2) ∧
        (∀ h : windows 2 ["a@b.c", "d@e.f", "g@h.i"] ≠ [],
          ((windows 2 ["a@b.c", "d@e.f", "g@h.i"]).getLast h).length =
            if ["a@b.c", "d@e.f", "g@h.i"].length % 2 = 0 then 2
            else ["a@b.c", "d@e.f", "g@h.i"].length % 2)) :=
  ⟨by decide, c2_window_partition oracleOk 2 7 ["a@b.c", "d@e.f", "g@h.i"]
    (by decide)⟩

/-- C3: a provider failure for one recipient is recorded as a failure entry
carrying that recipient and the error's message text, the batch is not
aborted (every recipient of the list still yields a success or failure
record), and every other valid recipient still receives its provider
call. -/
theorem c3_provider_failure_isolated
    (oracle : String → Except String String) (W D : Nat) (xs : List String)
    (e msg : String) (hW : 0 < W) (he : e ∈ xs)
    (hv : isValidEmail e = true) (herr : oracle e = .error msg) :
    (e, msg) ∈ (sendBatchEmails oracle W D xs).1.failed ∧
    (∀ e' ∈ xs,
      e' ∈ (sendBatchEmails oracle W D xs).1.successful.map Prod.fst ∨
      e' ∈ (sendBatchEmails oracle W D xs).1.failed.map Prod.fst) ∧
    (∀ e' ∈ xs, isValidEmail e' = true →
      Ev.call e' ∈ (sendBatchEmails oracle W D xs).2) := by
  refine ⟨?_, record_exists oracle hW D xs, ?_⟩
  · rw [sendBatch_failed hW]
    exact mem_failOf.mpr ⟨he, send_error_of_valid hv herr⟩
  · intro e' he' hv'
    exact (call_mem_sendBatch hW oracle D xs e').mpr ⟨he', hv'⟩

/-- Witness for C3 with a provider that rejects one of two recipients. -/
theorem c3_witness :
    ("x@y.z", "provider rejected") ∈
      (sendBatchEmails (oracleFailOn "x@y.z") 50 1000
        ["a@b.c", "x@y.z"]).1.failed ∧
    (∀ e' ∈ ["a@b.c", "x@y.z"],
      e' ∈ (sendBatchEmails (oracleFailOn "x@y.z") 50 1000
        ["a@b.c", "x@y.z"]).1.successful.map Prod.fst ∨
      e' ∈ (sendBatchEmails (oracleFailOn "x@y.z") 50 1000
        ["a@b.c", "x@y.z"]).1.failed.map Prod.fst) ∧
    (∀ e' ∈ ["a@b.c", "x@y.z"], isValidEmail e' = true →
      Ev.call e' ∈ (sendBatchEmails (oracleFailOn "x@y.z") 50 1000
        ["a@b.c", "x@y.z"]).2) :=
  c3_provider_failure_isolated (oracleFailOn "x@y.z") 50 1000
    ["a@b.c", "x@y.z"] "x@y.z" "provider rejected"
    (by decide) (by decide) (by decide) rfl

/-- C4: for a run whose input passes the validity precondition, the success
count plus the failure count equals the input length, the recipients of the
two record lists are a permutation of the input, and every input recipient
appears in exactly one of the two lists. -/
theorem c4_partition_of_outcomes
    (oracle : String → Except String String) (W D : Nat) (xs : List String)
    (hW : 0 < W) (hvalid : ∀ e ∈ xs, isValidEmail e = true) :
    (sendBatchEmails oracle W D xs).1.successful.length +
        (sendBatchEmails oracle W D xs).1.failed.length = xs.length ∧
    ((sendBatchEmails oracle W D xs).1.successful.map Prod.fst ++
        (sendBatchEmails oracle W D xs).1.failed.map Prod.fst).Perm xs ∧
    ∀ e ∈ xs,
      (e ∈ (sendBatchEmails oracle W D xs).1.successful.map Prod.fst ∧
        e ∉ (sendBatchEmails oracle W D xs).1.failed.map Prod.fst) ∨
      (e ∉ (sendBatchEmails oracle W D xs).1.successful.map Prod.fst ∧
        e ∈ (sendBatchEmails oracle W D xs).1.failed.map Prod.fst) := by
  rw [sendBatch_successful hW, sendBatch_failed hW]
  refine ⟨length_succOf_add_failOf oracle xs, perm_succOf_failOf oracle xs, ?_⟩
  intro e he
  cases hor : oracle e with
  | ok m =>
    have hsend := send_ok_of_valid (hvalid e he) hor
    refine Or.inl ⟨mem_fst_succOf.mpr ⟨he, m, hsend⟩, fun hmem => ?_⟩
    obtain ⟨_, m', herr⟩ := mem_fst_failOf.mp hmem
    rw [hsend] at herr
    cases herr
  | error m =>
    have hsend := send_error_of_valid (hvalid e he) hor
    refine Or.inr ⟨fun hmem => ?_, mem_fst_failOf.mpr ⟨he, m, hsend⟩⟩
    obtain ⟨_, m', hok⟩ := mem_fst_succOf.mp hmem
    rw [hsend] at hok
    cases hok

/-- Witness for C4 with two valid recipients, one of which the provider
rejects. -/
theorem c4_witness :
    (sendBatchEmails (oracleFailOn "x@y.z") 50 1000
        ["a@b.c", "x@y.z"]).1.successful.length +
      (sendBatchEmails (oracleFailOn "x@y.z") 50 1000
        ["a@b.c", "x@y.z"]).1.failed.length =
      ["a@b.c", "x@y.z"].length ∧
    ((sendBatchEmails (oracleFailOn "x@y.z") 50 1000
        ["a@b.c", "x@y.z"]).1.successful.map Prod.fst ++
      (sendBatchEmails (oracleFailOn "x@y.z") 50 1000
        ["a@b.c", "x@y.z"]).1.failed.map Prod.fst).Perm
      ["a@b.c", "x@y.z"] ∧
    ∀ e ∈ ["a@b.c", "x@y.z"],
      (e ∈ (sendBatchEmails (oracleFailOn "x@y.z") 50 1000
          ["a@b.c", "x@y.z"]).1.successful.map Prod.fst ∧
        e ∉ (sendBatchEmails (oracleFailOn "x@y.z") 50 1000
          ["a@b.c", "x@y.z"]).1.failed.map Prod.fst) ∨
      (e ∉ (sendBatchEmails (oracleFailOn "x@y.z") 50 1000
          ["a@b.c", "x@y.z"]).1.successful.map Prod.fst ∧
        e ∈ (sendBatchEmails (oracleFailOn "x@y.z") 50 1000
          ["a@b.c", "x@y.z"]).1.failed.map Prod.fst) :=
  c4_partition_of_outcomes (oracleFailOn "x@y.z") 50 1000
    ["a@b.c", "x@y.z"] (by decide) (by decide)

/-- C5: the trace of a run is the window blocks separated by single `pause D`
events: every pause in the trace is exactly `D`, there are exactly
(number of windows) - 1 pauses, no pause follows the final window (the trace
ends with a non-pause event), and when `W` divides `N` there are exactly
`N / W - 1` pauses. -/
theorem c5_exact_pause_layout
    (oracle : String → Except String String) (W D : Nat) (xs : List String)
    (hW : 0 < W) :
    (sendBatchEmails oracle W D xs).2 =
      List.intercalate [Ev.pause D]
        ((windows W xs).map fun b => Ev.window b :: callEvents b) ∧
    (∀ ev ∈ (sendBatchEmails oracle W D xs).2, isPauseEv ev = true →
      ev = Ev.pause D) ∧
    (sendBatchEmails oracle W D xs).2.countP isPauseEv =
      (windows W xs).length - 1 ∧
    (xs ≠ [] → ∃ ev, (sendBatchEmails oracle W D xs).2.getLast? = some ev ∧
      isPauseEv ev = false) ∧
    (xs.length % W = 0 →
      (sendBatchEmails oracle W D xs).2.countP isPauseEv =
        xs.length / W - 1) := by
  refine ⟨dispatchWindows_snd oracle D (windows W xs) ⟨[], []⟩,
    fun ev hev hp =>
      pause_mem_dispatch oracle D (windows W xs) ⟨[], []⟩ ev hev hp,
    countP_pause_dispatch oracle D (windows W xs) ⟨[], []⟩, ?_, ?_⟩
  · intro hne
    exact getLast_trace_dispatch oracle D (windows W xs) ⟨[], []⟩
      (windows_ne_nil hW hne)
  · intro hmod
    have h2 : (sendBatchEmails oracle W D xs).2.countP isPauseEv =
        (windows W xs).length - 1 :=
      countP_pause_dispatch oracle D (windows W xs) ⟨[], []⟩
    rw [h2, windows_length hW, ceil_div_of_dvd hW hmod]

/-- Witness for C5: windows of size one over two recipients give one pause. -/
theorem c5_witness :
    (sendBatchEmails oracleOk 1 9 ["a@b.c", "d@e.f"]).2 =
      List.intercalate [Ev.pause 9]
        ((windows 1 ["a@b.c", "d@e.f"]).map fun b =>
          Ev.window b :: callEvents b) ∧
    (∀ ev ∈ (sendBatchEmails oracleOk 1 9 ["a@b.c", "d@e.f"]).2,
      isPauseEv ev = true → ev = Ev.pause 9) ∧
    (sendBatchEmails oracleOk 1 9 ["a@b.c", "d@e.f"]).2.countP isPauseEv =
      (windows 1 ["a@b.c", "d@e.f"]).length - 1 ∧
    (["a@b.c", "d@e.f"] ≠ [] →
      ∃ ev, (sendBatchEmails oracleOk 1 9 ["a@b.c", "d@e.f"]).2.getLast? =
        some ev ∧ isPauseEv ev = false) ∧
    (["a@b.c", "d@e.f"].length % 1 = 0 →
      (sendBatchEmails oracleOk 1 9 ["a@b.c", "d@e.f"]).2.countP isPauseEv =
        ["a@b.c", "d@e.f"].length / 1 - 1) :=
  c5_exact_pause_layout oracleOk 1 9 ["a@b.c", "d@e.f"] (by decide)

/-- C6 counterexample: the string "a@b" has the claim's shape (non-empty
local part, "@", non-empty domain part, no whitespace) but `isValidEmail`
rejects it, so validation does impose a further requirement on the domain
part. -/
theorem c6_counterexample :
    specEmailShape "a@b" = true ∧ isValidEmail "a@b" = false := by decide

/-- C6 amended: `isValidEmail` accepts `s` iff `s` decomposes as
`a ++ "@" ++ b ++ "." ++ c` with `a`, `b`, `c` non-empty and every character
neither whitespace nor "@": on top of the claimed shape, the domain part
must contain a dot with non-empty text on both sides, and "@" may not occur
inside the parts. -/
theorem c6_amended_validation_shape (s : String) :
    isValidEmail s = true ↔
      ∃ a b c : List Char, a ≠ [] ∧ b ≠ [] ∧ c ≠ [] ∧
        a.all emailChar = true ∧ b.all emailChar = true ∧
        c.all emailChar = true ∧
        s.toList = a ++ '@' :: (b ++ '.' :: c) :=
  isValidEmail_iff

/-- C7: the process exits non-zero exactly when the precondition fails:
the input is empty or contains an address rejected by `isValidEmail`.  Any
run passing the precondition exits zero, however many sends fail. -/
theorem c7_exit_zero_iff_precondition
    (oracle : String → Except String String) (args : List String) :
    (main oracle args).exitCode ≠ 0 ↔
      (args = [] ∨ ∃ e ∈ args, isValidEmail e = false) := by
  by_cases h0 : args.length = 0
  · rw [main, if_pos h0]
    exact iff_of_true one_ne_zero (Or.inl (List.length_eq_zero.mp h0))
  · rw [main, if_neg h0]
    by_cases h1 : 0 < (args.filter fun x => !isValidEmail x).length
    · rw [if_pos h1]
      refine iff_of_true one_ne_zero (Or.inr ?_)
      obtain ⟨e, hef⟩ : ∃ e, e ∈ args.filter fun x => !isValidEmail x := by
        cases hf : args.filter fun x => !isValidEmail x with
        | nil => rw [hf] at h1; simp at h1
        | cons a l => exact ⟨a, hf ▸ List.mem_cons_self a l⟩
      obtain ⟨he, hb⟩ := List.mem_filter.mp hef
      exact ⟨e, he, by simpa using hb⟩
    · rw [if_neg h1]
      refine iff_of_false (fun h => h rfl) ?_
      rintro (rfl | ⟨e, he, hbad⟩)
      · exact h0 rfl
      · refine h1 (List.length_pos.mpr (List.ne_nil_of_mem (a := e) ?_))
        exact List.mem_filter.mpr ⟨he, by simp [hbad]⟩

/-- C8: the empty input list makes the run exit with status 1 immediately:
no dispatch happens, no record is produced, and no event (in particular no
provider call) is issued. -/
theorem c8_empty_input_usage_error (oracle : String → Except String String) :
    main oracle [] = ⟨1, none, []⟩ := rfl

/-- C9: calling `sendBatchEmails` directly on a list containing an invalid
address does not fail fast: the invalid recipient is recorded in the failed
list with message "Invalid email address: <addr>", no provider call is made
for it, every recipient of the list still yields a record, and every valid
recipient still receives its provider call. -/
theorem c9_direct_dispatch_per_item_skip
    (oracle : String → Except String String) (W D : Nat) (xs : List String)
    (e : String) (hW : 0 < W) (he : e ∈ xs)
    (hbad : isValidEmail e = false) :
    (e, "Invalid email address: " ++ e) ∈
      (sendBatchEmails oracle W D xs).1.failed ∧
    Ev.call e ∉ (sendBatchEmails oracle W D xs).2 ∧
    (∀ e' ∈ xs,
      e' ∈ (sendBatchEmails oracle W D xs).1.successful.map Prod.fst ∨
      e' ∈ (sendBatchEmails oracle W D xs).1.failed.map Prod.fst) ∧
    (∀ e' ∈ xs, isValidEmail e' = true →
      Ev.call e' ∈ (sendBatchEmails oracle W D xs).2) := by
  refine ⟨?_, ?_, record_exists oracle hW D xs, ?_⟩
  · rw [sendBatch_failed hW]
    exact mem_failOf.mpr ⟨he, send_error_of_invalid hbad⟩
  · intro hcall
    obtain ⟨_, hv⟩ := (call_mem_sendBatch hW oracle D xs e).mp hcall
    rw [hbad] at hv
    cases hv
  · intro e' he' hv'
    exact (call_mem_sendBatch hW oracle D xs e').mpr ⟨he', hv'⟩

/-- Witness for C9: direct dispatch of a list whose first entry is
invalid. -/
theorem c9_witness :
    ("bad", "Invalid email address: " ++ "bad") ∈
      (sendBatchEmails oracleOk 50 1000 ["bad", "a@b.c"]).1.failed ∧
    Ev.call "bad" ∉ (sendBatchEmails oracleOk 50 1000 ["bad", "a@b.c"]).2 ∧
    (∀ e' ∈ ["bad", "a@b.c"],
      e' ∈ (sendBatchEmails oracleOk 50 1000
        ["bad", "a@b.c"]).1.successful.map Prod.fst ∨
      e' ∈ (sendBatchEmails oracleOk 50 1000
        ["bad", "a@b.c"]).1.failed.map Prod.fst) ∧
    (∀ e' ∈ ["bad", "a@b.c"], isValidEmail e' = true →
      Ev.call e' ∈ (sendBatchEmails oracleOk 50 1000 ["bad", "a@b.c"]).2) :=
  c9_direct_dispatch_per_item_skip oracleOk 50 1000 ["bad", "a@b.c"] "bad"
    (by decide) (by decide) (by decide)

end SesTester

namespace Recon

/-- C10: every line the `out.txt` loop emits is non-empty, passes the
domain-name validation, and is some non-empty input line with a single
trailing dot removed; a line whose stripped form fails validation is never
emitted. -/
theorem c10_outlines_validated (lines : List (List Char)) (out : List Char)
    (hmem : out ∈ outLines lines) :
    out ≠ [] ∧ validDomain out = true ∧
      ∃ src ∈ lines, src ≠ [] ∧ out = stripTrailingDot src := by
  obtain ⟨src, hsrc, hne, heq, hv⟩ := mem_outLines.mp hmem
  refine ⟨?_, hv, src, hsrc, hne, heq⟩
  intro hnil
  rw [hnil, validDomain_nil] at hv
  cases hv

/-- Witness for C10: a lookup answer with a trailing dot is emitted in
stripped form; an invalid line and an empty line are dropped. -/
theorem c10_witness :
    ['e', 'x', '.', 'c', 'o', 'm'] ≠ [] ∧
    validDomain ['e', 'x', '.', 'c', 'o', 'm'] = true ∧
    ∃ src ∈ [['e', 'x', '.', 'c', 'o', 'm', '.'], ['-', 'x'],
        ([] : List Char)],
      src ≠ [] ∧ ['e', 'x', '.', 'c', 'o', 'm'] = stripTrailingDot src :=
  c10_outlines_validated
    [['e', 'x', '.', 'c', 'o', 'm', '.'], ['-', 'x'], ([] : List Char)]
    ['e', 'x', '.', 'c', 'o', 'm'] (by decide)

end Recon

end Dump
